import Mathlib

/-!
Shallow embedding of `mbox_analyzer.py`: a streaming mbox boundary scanner
(`MboxReader`), per-message field extraction (`read_messages`,
`extract_address`, `filter_gmail_labels`), aggregation (`agg_stats`) and
sorting (`sort_stats`).  Byte streams are modelled as `List Char` (one
element per byte), header lookup (`email.message_from_bytes`) is the opaque
external capability the design document declares it to be and is passed in
as a function.
-/

/-- The `StatisticsLine` dataclass: one record of statistics output. -/
structure StatisticsLine where
  count : Nat
  total_size_bytes : Nat
  from_addr : String
  labels : String
deriving DecidableEq, Repr

/-- `line.startswith(b'From ')`: the sentinel test used both by the
constructor's assert and by the scanning loop. -/
def startsWithFrom (l : List Char) : Bool :=
  List.isPrefixOf ("From ".toList) l

/-- Split a byte stream into lines exactly as repeated `readline` calls do:
every line keeps its terminating newline; a final unterminated chunk is its
own line; the empty stream has no lines (`readline` returns the empty byte
string immediately). -/
def splitLines : List Char → List (List Char)
  | [] => []
  | c :: cs =>
    if c = '\n' then ['\n'] :: splitLines cs
    else
      match splitLines cs with
      | [] => [[c]]
      | l :: ls => (c :: l) :: ls

/-- The loop body of `MboxReader.__next__` (lines 44-56): lines accumulate
into a buffer; a line starting with the sentinel, or end of stream, closes
the buffer as one record.  After a sentinel line the buffer is reset to
`lines = []`, so the sentinel line itself lands in no buffer. -/
def mboxScan (buf : List Char) : List (List Char) → List (List Char)
  | [] => [buf]
  | l :: ls =>
    if startsWithFrom l then buf :: mboxScan [] ls
    else mboxScan (buf ++ l) ls

/-- `MboxReader.__init__` (lines 23-28) followed by iterating `__next__`:
the first line is read and must start with `"From "` (the `assert`); it is
consumed by the constructor and belongs to no record.  `none` models the
fatal `AssertionError`; on an empty file `readline` returns the empty byte
string, which fails the assert. -/
def mboxRecords (src : List Char) : Option (List (List Char)) :=
  match splitLines src with
  | [] => none
  | first :: rest =>
    if startsWithFrom first then some (mboxScan [] rest) else none

/-- Python's `str.split(sep)` for a one-character separator: the pieces
between separator occurrences, so the empty string yields one empty piece
and a trailing separator yields a trailing empty piece. -/
def splitOnChar (sep : Char) : List Char → List (List Char)
  | [] => [[]]
  | c :: cs =>
    if c = sep then [] :: splitOnChar sep cs
    else
      match splitOnChar sep cs with
      | [] => [[c]]
      | t :: ts => (c :: t) :: ts

/-- The loop of `filter_gmail_labels` (lines 70-77) with its two `continue`
branches; `x.startswith('Category ')` is the list prefix test on the
string's characters. -/
def filterLabelsLoop : List String → List String
  | [] => []
  | x :: xs =>
    if x = "Inbox" ∨ x = "Important" ∨ x = "Opened" then filterLabelsLoop xs
    else if List.isPrefixOf ("Category ".toList) x.data then filterLabelsLoop xs
    else x :: filterLabelsLoop xs

/-- `filter_gmail_labels` (lines 67-77): split on comma, skip boring
built-in Gmail labels. -/
def filter_gmail_labels (comma_separated_labels : String) : List String :=
  filterLabelsLoop ((splitOnChar ',' comma_separated_labels.data).map String.mk)

/-- Lines 102-103 of `read_messages`: `','.join(list(sorted(labels)))`
applied to `filter_gmail_labels`; Python's stable `sorted` on strings is the
lexicographic (code-point) order, modelled by `mergeSort` under `String`'s
lexicographic `≤`. -/
def label_string (gmail_labels : String) : String :=
  String.intercalate ","
    ((filter_gmail_labels gmail_labels).mergeSort (fun a b => decide (a ≤ b)))

/-- One attempt of the pattern of `extract_address` at a fixed position:
`cs` is the text following a literal `<`.  Mirrors the regex
`<([^>@]+@[^>]+)>` with its leftmost-match, greedy semantics: a nonempty
maximal run of characters that are neither `@` nor `>`, then `@`, then a
nonempty maximal run of characters that are not `>`, then `>`.  Returns the
captured group. -/
def tryMatch (cs : List Char) : Option (List Char) :=
  let loc := cs.takeWhile (fun c => !(c == '@' || c == '>'))
  match cs.dropWhile (fun c => !(c == '@' || c == '>')) with
  | '@' :: rest =>
    if loc = [] then none
    else
      let dom := rest.takeWhile (fun c => !(c == '>'))
      match rest.dropWhile (fun c => !(c == '>')) with
      | '>' :: _ => if dom = [] then none else some (loc ++ '@' :: dom)
      | _ => none
  | _ => none

/-- `re.findall(r"<([^>@]+@[^>]+)>", x)` restricted to its first result:
scan left to right; a match can only begin at a `<`. -/
def findAddr : List Char → Option (List Char)
  | [] => none
  | c :: cs =>
    if c = '<' then
      match tryMatch cs with
      | some r => some r
      | none => findAddr cs
    else findAddr cs

/-- `extract_address` (lines 80-85): first regex match if any, otherwise
the input unchanged. -/
def extract_address (x : String) : String :=
  match findAddr x.data with
  | some r => String.mk r
  | none => x

/-- The per-message body of `read_messages` (lines 92-109): `size` is
`msg._x_sz`; an absent `From` or `X-Gmail-Labels` header (`None`) is turned
into the string `str(None) = "None"`, then the address is extracted and the
label list is normalized. -/
def processMsg (size : Nat) (fromHeader gmailLabelsHeader : Option String) :
    StatisticsLine :=
  let gmail_labels := match gmailLabelsHeader with | none => "None" | some s => s
  let from_ := match fromHeader with | none => "None" | some s => s
  { count := 1
    total_size_bytes := size
    from_addr := extract_address from_
    labels := label_string gmail_labels }

/-- `read_messages` (lines 88-109) over an already-scanned record list:
one `StatisticsLine` per record, with `total_size_bytes = msg._x_sz` the
record's byte length.  `hFrom` and `hLabels` stand for the opaque header
extraction applied to the record's bytes (the `To` header is read by the
source but never used). -/
def read_messages (hFrom hLabels : List Char → Option String)
    (recs : List (List Char)) : List StatisticsLine :=
  recs.map (fun r => processMsg r.length (hFrom r) (hLabels r))

/-- The `key` function of `agg_stats` (lines 122-123). -/
def statKey (x : StatisticsLine) : String × String :=
  (x.from_addr, x.labels)

/-- One `sizes[k] += m.total_size_bytes; counts[k] += m.count` step of
`agg_stats` (lines 124-127).  The two `defaultdict`s are modelled as one
association list kept in key insertion order, which is the order a Python
dict iterates in. -/
def aggStep (acc : List ((String × String) × (Nat × Nat)))
    (k : String × String) (sz cnt : Nat) :
    List ((String × String) × (Nat × Nat)) :=
  match acc with
  | [] => [(k, (sz, cnt))]
  | (k', v) :: rest =>
    if k' = k then (k', (v.1 + sz, v.2 + cnt)) :: rest
    else (k', v) :: aggStep rest k sz cnt

/-- `agg_stats` (lines 119-136): fold all records into the grouping
structure, then emit one `StatisticsLine` per key in its iteration
(= insertion) order. -/
def agg_stats (ms : List StatisticsLine) : List StatisticsLine :=
  (ms.foldl (fun acc m => aggStep acc (statKey m) m.total_size_bytes m.count)
      []).map
    (fun p =>
      { total_size_bytes := p.2.1
        count := p.2.2
        from_addr := p.1.1
        labels := p.1.2 })

/-- `sort_stats` (lines 139-142): Python's stable
`list.sort(key=lambda x: x.total_size_bytes)`, modelled by the stable
`mergeSort`. -/
def sort_stats (ms : List StatisticsLine) : List StatisticsLine :=
  ms.mergeSort (fun a b => decide (a.total_size_bytes ≤ b.total_size_bytes))

/-! Claim-side definitions, written from the specification's words rather
than from the source, for comparison against the source embedding. -/

/-- Specification-side sentinel test: the prefix `"From "` followed by at
least one space-separated token, i.e. some character on the rest of the
line that is neither a space nor the line terminator. -/
def specSentinelLine (l : List Char) : Bool :=
  List.isPrefixOf ("From ".toList) l &&
    (l.drop 5).any (fun c => !(c == ' ' || c == '\n'))

/-- Specification-side "boring label" predicate: exactly one of the boring
set, or starting with the boring prefix. -/
def boringLabel (x : String) : Bool :=
  x == "Inbox" || x == "Important" || x == "Opened" ||
    List.isPrefixOf ("Category ".toList) x.data

/-- Specification-side description of a valid local part: nonempty, and
containing neither `@` nor `>`. -/
def ValidLoc (loc : List Char) : Prop :=
  loc ≠ [] ∧ ∀ c ∈ loc, c ≠ '@' ∧ c ≠ '>'

/-- Specification-side description of a valid domain part: nonempty and
containing no `>`. -/
def ValidDom (dom : List Char) : Prop :=
  dom ≠ [] ∧ ∀ c ∈ dom, c ≠ '>'

/-- The text `x` carries a bracketed address `<loc@dom>` starting at
position `i`. -/
def AddrStringAt (x : List Char) (i : Nat) (loc dom : List Char) : Prop :=
  (∃ suf, x.drop i = '<' :: (loc ++ '@' :: (dom ++ '>' :: suf))) ∧
    ValidLoc loc ∧ ValidDom dom

/-- Some bracketed address starts at position `i` of `x`. -/
def BracketAt (x : List Char) (i : Nat) : Prop :=
  ∃ loc dom, AddrStringAt x i loc dom

/-- The keys of a list in first-occurrence order: each key appears exactly
once, at the position of its first occurrence. -/
def firstOccurList {α : Type _} [DecidableEq α] : List α → List α
  | [] => []
  | a :: l => a :: firstOccurList (l.filter (fun b => decide (b ≠ a)))
termination_by l => l.length
decreasing_by
  simp only [List.length_cons]
  exact Nat.lt_succ_of_le (List.length_filter_le _ _)

theorem splitLines_flatten : ∀ s : List Char, (splitLines s).flatten = s := by
  intro s
  induction s with
  | nil => rfl
  | cons c cs ih =>
    by_cases h : c = '\n'
    · subst h
      simp [splitLines, ih]
    · simp only [splitLines, if_neg h]
      cases hs : splitLines cs with
      | nil =>
        rw [hs] at ih
        simp at ih
        simp [← ih]
      | cons l ls =>
        rw [hs] at ih
        simp only [List.flatten_cons] at ih ⊢
        simp [ih]

theorem mboxScan_sum : ∀ (ls : List (List Char)) (buf : List Char),
    ((mboxScan buf ls).map List.length).sum
      = buf.length + ((ls.filter (fun l => !startsWithFrom l)).map List.length).sum := by
  intro ls
  induction ls with
  | nil => intro buf; simp [mboxScan]
  | cons l ls ih =>
    intro buf
    by_cases h : startsWithFrom l
    · simp [mboxScan, h, ih]
    · simp [mboxScan, h, ih]
      omega

theorem sum_length_partition (p : List Char → Bool) :
    ∀ ls : List (List Char),
      ((ls.filter p).map List.length).sum
        + ((ls.filter (fun l => !p l)).map List.length).sum
      = (ls.map List.length).sum := by
  intro ls
  induction ls with
  | nil => simp
  | cons l ls ih =>
    by_cases h : p l
    · simp [h, ih]
      omega
    · simp [h, ih]
      omega

theorem map_modifyHead_comm {α β : Type _} (f : α → β) (g : α → α) (h : β → β)
    (hfg : ∀ a, f (g a) = h (f a)) :
    ∀ l : List α, (l.modifyHead g).map f = (l.map f).modifyHead h := by
  intro l
  cases l <;> simp [hfg]

theorem modifyHead_modifyHead {α : Type _} (g h : α → α) :
    ∀ l : List α, (l.modifyHead g).modifyHead h = l.modifyHead (fun a => h (g a)) := by
  intro l
  cases l <;> simp

theorem modifyHead_nil_append : ∀ l : List (List Char),
    l.modifyHead (fun g => [] ++ g) = l := by
  intro l
  cases l <;> simp

theorem mboxScan_splitOnP : ∀ (ls : List (List Char)) (buf : List Char),
    mboxScan buf ls
      = ((ls.splitOnP startsWithFrom).map List.flatten).modifyHead
          (fun g => buf ++ g) := by
  intro ls
  induction ls with
  | nil =>
    intro buf
    simp [mboxScan, List.splitOnP_nil]
  | cons l ls ih =>
    intro buf
    by_cases h : startsWithFrom l
    · simp only [mboxScan, h, if_true, List.splitOnP_cons, List.map_cons,
        List.flatten_nil, List.modifyHead_cons, List.append_nil]
      rw [ih [], modifyHead_nil_append]
    · simp only [mboxScan, h, if_false, List.splitOnP_cons, Bool.false_eq_true]
      rw [ih (buf ++ l)]
      rw [map_modifyHead_comm List.flatten (List.cons l) (fun g => l ++ g)
        (by intro a; simp)]
      rw [modifyHead_modifyHead]
      congr 1
      funext g
      simp [List.append_assoc]

/-- C1 (amended): boundary scanning is not byte-lossless; every sentinel line
(the first line of the source and every later line starting with `"From "`)
is consumed by the scanner and lands in no record, so the sum of
`total_size_bytes` over the raw records plus the total byte length of all
sentinel lines equals the byte length of the input source. -/
theorem c1_sum_sizes (hFrom hLabels : List Char → Option String)
    (src : List Char) (recs : List (List Char))
    (h : mboxRecords src = some recs) :
    ((read_messages hFrom hLabels recs).map (fun m => m.total_size_bytes)).sum
      + (((splitLines src).filter startsWithFrom).map List.length).sum
      = src.length := by
  unfold mboxRecords at h
  cases hs : splitLines src with
  | nil => rw [hs] at h; exact absurd h (by simp)
  | cons first rest =>
    rw [hs] at h
    dsimp only at h
    by_cases hf : startsWithFrom first
    · rw [if_pos hf] at h
      have hrecs : recs = mboxScan [] rest := by
        injection h with h; exact h.symm
      subst hrecs
      have hm : (read_messages hFrom hLabels (mboxScan [] rest)).map
          (fun m => m.total_size_bytes) = (mboxScan [] rest).map List.length := by
        unfold read_messages
        rw [List.map_map]
        rfl
      rw [hm, mboxScan_sum]
      have hj := splitLines_flatten src
      rw [hs] at hj
      have hlen : src.length = ((first :: rest).map List.length).sum := by
        rw [← hj, List.length_flatten]
      have hp := sum_length_partition startsWithFrom rest
      rw [hlen]
      simp only [List.filter_cons, hf, if_true, List.map_cons, List.sum_cons]
      simp only [List.length_nil]
      omega
    · rw [if_neg hf] at h
      exact absurd h (by simp)

theorem c1_sum_sizes_witness :
    ((read_messages (fun _ => none) (fun _ => none) ["X\n".toList]).map
        (fun m => m.total_size_bytes)).sum
      + (((splitLines ("From a\nX\n".toList)).filter startsWithFrom).map
          List.length).sum
      = ("From a\nX\n".toList).length :=
  c1_sum_sizes (fun _ => none) (fun _ => none) ("From a\nX\n".toList)
    ["X\n".toList] (by decide)

/-- C1 counterexample: on the 9-byte source `"From a\nX\n"` the single raw
record has `total_size_bytes = 2`, so the sum of sizes does not equal the
byte length of the input. -/
theorem c1_counterexample :
    mboxRecords ("From a\nX\n".toList) = some ["X\n".toList] ∧
    ¬ ((read_messages (fun _ => none) (fun _ => none) ["X\n".toList]).map
        (fun m => m.total_size_bytes)).sum = ("From a\nX\n".toList).length := by
  constructor
  · decide
  · decide

/-- C2 (amended): each emitted record is exactly the concatenation of the
lines strictly between its leading delimiter line and the next delimiter
(or end of stream): both delimiter lines are excluded, because each new
buffer starts empty (`lines = []`), discarding the triggering sentinel
line.  Consequently `msg._x_sz` is the byte length of that in-between
content. -/
theorem c2_record_bytes (src : List Char) (recs : List (List Char))
    (h : mboxRecords src = some recs) :
    recs = (((splitLines src).tail).splitOnP startsWithFrom).map List.flatten ∧
    recs.map List.length
      = (((splitLines src).tail).splitOnP startsWithFrom).map
          (fun g => (g.map List.length).sum) := by
  unfold mboxRecords at h
  cases hs : splitLines src with
  | nil => rw [hs] at h; exact absurd h (by simp)
  | cons first rest =>
    rw [hs] at h
    dsimp only at h
    by_cases hf : startsWithFrom first
    · rw [if_pos hf] at h
      have hrecs : recs = mboxScan [] rest := by
        injection h with h; exact h.symm
      subst hrecs
      have h1 : mboxScan [] rest = (rest.splitOnP startsWithFrom).map List.flatten := by
        rw [mboxScan_splitOnP, modifyHead_nil_append]
      constructor
      · simpa using h1
      · rw [h1, List.map_map, List.tail_cons]
        congr 1
        funext g
        simp [List.length_flatten]
    · rw [if_neg hf] at h
      exact absurd h (by simp)

theorem c2_record_bytes_witness :
    ["X\n".toList] = (((splitLines ("From a\nX\n".toList)).tail).splitOnP
        startsWithFrom).map List.flatten ∧
    [("X\n".toList)].map List.length
      = (((splitLines ("From a\nX\n".toList)).tail).splitOnP startsWithFrom).map
          (fun g => (g.map List.length).sum) :=
  c2_record_bytes ("From a\nX\n".toList) ["X\n".toList] (by decide)

/-- C2 counterexample: on `"From a\nX\nFrom b\nY\n"` the scanner emits the
records `"X\n"` and `"Y\n"`; the second buffer does not start with the
triggering sentinel line `"From b\n"`, and its recorded length 2 differs
from the 9-byte length of the message record measured from its leading
delimiter line. -/
theorem c2_counterexample :
    mboxRecords ("From a\nX\nFrom b\nY\n".toList)
        = some ["X\n".toList, "Y\n".toList] ∧
    ¬ List.isPrefixOf ("From b\n".toList) ("Y\n".toList) ∧
    ¬ ("Y\n".toList).length = ("From b\nY\n".toList).length := by
  refine ⟨by decide, by decide, by decide⟩

/-- C9: a boundary event hitting an empty buffer still emits a zero-length
record: a sentinel line at the head of the remaining stream contributes an
empty record; end of stream emits the (possibly empty) buffer; a source of
exactly one sentinel line yields one empty record; two consecutive sentinel
lines yield an empty record between them. -/
theorem c9_empty_records :
    (∀ (s : List Char) (ls : List (List Char)), startsWithFrom s = true →
        mboxScan [] (s :: ls) = [] :: mboxScan [] ls) ∧
    mboxScan ([] : List Char) [] = [[]] ∧
    mboxRecords ("From a\n".toList) = some [[]] ∧
    mboxRecords ("From a\nFrom b\nX\n".toList) = some [[], "X\n".toList] := by
  refine ⟨?_, by decide, by decide, by decide⟩
  intro s ls hs
  simp [mboxScan, hs]

theorem c9_empty_records_witness :
    startsWithFrom ("From x\n".toList) = true ∧
    mboxScan [] ["From x\n".toList] = [] :: mboxScan [] [] :=
  ⟨by decide, c9_empty_records.1 ("From x\n".toList) [] (by decide)⟩

/-- C4 (amended): constructing the reader fails (before any record is
produced) exactly when the first line of the source does not start with the
five-byte prefix `"From "`; no further token after the prefix is required.
An empty source fails, since `readline` returns the empty byte string. -/
theorem c4_init_assert :
    (∀ src : List Char,
      mboxRecords src = none ↔ startsWithFrom ((splitLines src).headD []) = false) ∧
    mboxRecords ([] : List Char) = none := by
  refine ⟨?_, by decide⟩
  intro src
  unfold mboxRecords
  cases hs : splitLines src with
  | nil => simp [startsWithFrom]
  | cons first rest =>
    by_cases hf : startsWithFrom first
    · simp [hf]
    · simp [hf]

/-- C4 counterexample: the source `"From \n"` has no space-separated token
after the sentinel prefix, so per the claim construction should fail; but
the code's `startswith(b'From ')` check passes and a record is produced. -/
theorem c4_counterexample :
    (mboxRecords ("From \n".toList)).isSome = true ∧
    specSentinelLine ("From \n".toList) = false := by
  exact ⟨by decide, by decide⟩

theorem aggStep_fst : ∀ (acc : List ((String × String) × (Nat × Nat)))
    (k : String × String) (sz cnt : Nat),
    (aggStep acc k sz cnt).map Prod.fst
      = if k ∈ acc.map Prod.fst then acc.map Prod.fst
        else acc.map Prod.fst ++ [k] := by
  intro acc
  induction acc with
  | nil => intro k sz cnt; simp [aggStep]
  | cons hd rest ih =>
    intro k sz cnt
    obtain ⟨k', v⟩ := hd
    by_cases hk : k' = k
    · subst hk
      simp [aggStep]
    · simp only [aggStep, if_neg hk, List.map_cons, ih]
      by_cases hm : k ∈ rest.map Prod.fst
      · simp [hm, Ne.symm hk]
      · simp [hm, Ne.symm hk]

theorem aggStep_sum_sz : ∀ (acc : List ((String × String) × (Nat × Nat)))
    (k : String × String) (sz cnt : Nat),
    ((aggStep acc k sz cnt).map (fun p => p.2.1)).sum
      = (acc.map (fun p => p.2.1)).sum + sz := by
  intro acc
  induction acc with
  | nil => intro k sz cnt; simp [aggStep]
  | cons hd rest ih =>
    intro k sz cnt
    obtain ⟨k', v⟩ := hd
    by_cases hk : k' = k
    · subst hk
      simp [aggStep]
      omega
    · simp [aggStep, if_neg hk, ih]
      omega

theorem aggStep_sum_cnt : ∀ (acc : List ((String × String) × (Nat × Nat)))
    (k : String × String) (sz cnt : Nat),
    ((aggStep acc k sz cnt).map (fun p => p.2.2)).sum
      = (acc.map (fun p => p.2.2)).sum + cnt := by
  intro acc
  induction acc with
  | nil => intro k sz cnt; simp [aggStep]
  | cons hd rest ih =>
    intro k sz cnt
    obtain ⟨k', v⟩ := hd
    by_cases hk : k' = k
    · subst hk
      simp [aggStep]
      omega
    · simp [aggStep, if_neg hk, ih]
      omega

theorem aggFold_sum_sz : ∀ (ms : List StatisticsLine)
    (acc : List ((String × String) × (Nat × Nat))),
    ((ms.foldl (fun acc m => aggStep acc (statKey m) m.total_size_bytes m.count)
        acc).map (fun p => p.2.1)).sum
      = (acc.map (fun p => p.2.1)).sum
        + (ms.map (fun m => m.total_size_bytes)).sum := by
  intro ms
  induction ms with
  | nil => intro acc; simp
  | cons m tl ih =>
    intro acc
    simp only [List.foldl_cons, List.map_cons, List.sum_cons]
    rw [ih, aggStep_sum_sz]
    omega

theorem aggFold_sum_cnt : ∀ (ms : List StatisticsLine)
    (acc : List ((String × String) × (Nat × Nat))),
    ((ms.foldl (fun acc m => aggStep acc (statKey m) m.total_size_bytes m.count)
        acc).map (fun p => p.2.2)).sum
      = (acc.map (fun p => p.2.2)).sum + (ms.map (fun m => m.count)).sum := by
  intro ms
  induction ms with
  | nil => intro acc; simp
  | cons m tl ih =>
    intro acc
    simp only [List.foldl_cons, List.map_cons, List.sum_cons]
    rw [ih, aggStep_sum_cnt]
    omega

theorem firstOccur_cons {α : Type _} [DecidableEq α] (a : α) (l : List α) :
    firstOccurList (a :: l)
      = a :: firstOccurList (l.filter (fun b => decide (b ≠ a))) := by
  rw [firstOccurList]

theorem mem_firstOccur {α : Type _} [DecidableEq α] :
    ∀ (l : List α) (b : α), b ∈ firstOccurList l ↔ b ∈ l
  | [], b => by simp [firstOccurList]
  | a :: l, b => by
    rw [firstOccur_cons]
    by_cases hba : b = a
    · subst hba; simp
    · simp only [List.mem_cons, hba, false_or]
      rw [mem_firstOccur (l.filter (fun c => decide (c ≠ a))) b]
      simp [List.mem_filter, hba]
termination_by l => l.length
decreasing_by
  simp only [List.length_cons]
  exact Nat.lt_succ_of_le (List.length_filter_le _ _)

theorem nodup_firstOccur {α : Type _} [DecidableEq α] :
    ∀ l : List α, (firstOccurList l).Nodup
  | [] => by simp [firstOccurList]
  | a :: l => by
    rw [firstOccur_cons]
    refine List.nodup_cons.mpr ⟨?_, nodup_firstOccur _⟩
    intro hmem
    rw [mem_firstOccur] at hmem
    have := (List.mem_filter.mp hmem).2
    simp at this
termination_by l => l.length
decreasing_by
  simp only [List.length_cons]
  exact Nat.lt_succ_of_le (List.length_filter_le _ _)

theorem aggFold_fst : ∀ (ms : List StatisticsLine)
    (acc : List ((String × String) × (Nat × Nat))),
    (ms.foldl (fun acc m => aggStep acc (statKey m) m.total_size_bytes m.count)
        acc).map Prod.fst
      = acc.map Prod.fst
        ++ firstOccurList ((ms.map statKey).filter
            (fun k => decide (k ∉ acc.map Prod.fst))) := by
  intro ms
  induction ms with
  | nil => intro acc; simp [firstOccurList]
  | cons m tl ih =>
    intro acc
    rw [List.foldl_cons, ih, aggStep_fst, List.map_cons, List.filter_cons]
    by_cases hin : statKey m ∈ acc.map Prod.fst
    · rw [if_pos hin]
      rw [show (decide (statKey m ∉ acc.map Prod.fst)) = false from by simp [hin]]
      simp only [Bool.false_eq_true, if_false]
    · rw [if_neg hin]
      rw [show (decide (statKey m ∉ acc.map Prod.fst)) = true from by simp [hin]]
      simp only [if_true]
      rw [firstOccur_cons, List.filter_filter]
      have hfil : (tl.map statKey).filter
            (fun k => decide (k ∉ acc.map Prod.fst ++ [statKey m]))
          = (tl.map statKey).filter
            (fun a => decide (a ≠ statKey m) && decide (a ∉ acc.map Prod.fst)) := by
        apply List.filter_congr
        intro x _
        by_cases h1 : x = statKey m <;> by_cases h2 : x ∈ acc.map Prod.fst <;>
          simp [List.mem_append, h1, h2]
      rw [hfil, List.append_assoc, List.singleton_append]

theorem agg_keys_eq (ms : List StatisticsLine) :
    (agg_stats ms).map statKey = firstOccurList (ms.map statKey) := by
  unfold agg_stats
  rw [List.map_map]
  have hco : (statKey ∘ fun p : (String × String) × Nat × Nat =>
      ({ total_size_bytes := p.2.1, count := p.2.2, from_addr := p.1.1,
         labels := p.1.2 } : StatisticsLine)) = Prod.fst := by
    funext p
    simp [statKey]
  rw [hco, aggFold_fst]
  simp

/-- C3: aggregation produces exactly one output record per distinct
`(from_addr, labels)` key observed in the input (the output key list has no
duplicates and covers exactly the observed keys), and it conserves both the
total message count and the total size in bytes. -/
theorem c3_agg_conserves (ms : List StatisticsLine) :
    ((agg_stats ms).map statKey).Nodup ∧
    (∀ k : String × String,
      k ∈ (agg_stats ms).map statKey ↔ k ∈ ms.map statKey) ∧
    ((agg_stats ms).map (fun m => m.count)).sum
      = (ms.map (fun m => m.count)).sum ∧
    ((agg_stats ms).map (fun m => m.total_size_bytes)).sum
      = (ms.map (fun m => m.total_size_bytes)).sum := by
  refine ⟨?_, ?_, ?_, ?_⟩
  · rw [agg_keys_eq]
    exact nodup_firstOccur _
  · intro k
    rw [agg_keys_eq, mem_firstOccur]
  · unfold agg_stats
    rw [List.map_map]
    have hco : ((fun m : StatisticsLine => m.count) ∘
        fun p : (String × String) × Nat × Nat =>
          ({ total_size_bytes := p.2.1, count := p.2.2, from_addr := p.1.1,
             labels := p.1.2 } : StatisticsLine)) = fun p => p.2.2 := rfl
    rw [hco, aggFold_sum_cnt]
    simp
  · unfold agg_stats
    rw [List.map_map]
    have hco : ((fun m : StatisticsLine => m.total_size_bytes) ∘
        fun p : (String × String) × Nat × Nat =>
          ({ total_size_bytes := p.2.1, count := p.2.2, from_addr := p.1.1,
             labels := p.1.2 } : StatisticsLine)) = fun p => p.2.1 := rfl
    rw [hco, aggFold_sum_sz]
    simp

/-- C10: `agg_stats` yields one record per distinct key, in the order in
which each key first occurs in the input (`firstOccurList` keeps exactly the
first occurrence of every key, in input order). -/
theorem c10_agg_order (ms : List StatisticsLine) :
    (agg_stats ms).map statKey = firstOccurList (ms.map statKey) :=
  agg_keys_eq ms

theorem sortLe_trans : ∀ a b c : StatisticsLine,
    (decide (a.total_size_bytes ≤ b.total_size_bytes)) = true →
    (decide (b.total_size_bytes ≤ c.total_size_bytes)) = true →
    (decide (a.total_size_bytes ≤ c.total_size_bytes)) = true := by
  intro a b c hab hbc
  simp only [decide_eq_true_iff] at *
  omega

theorem sortLe_total : ∀ a b : StatisticsLine,
    ((decide (a.total_size_bytes ≤ b.total_size_bytes))
      || (decide (b.total_size_bytes ≤ a.total_size_bytes))) = true := by
  intro a b
  simp only [Bool.or_eq_true, decide_eq_true_iff]
  omega

/-- C7: `sort_stats` returns the same multiset of records, totally ordered
by `total_size_bytes` ascending, stably (the subsequence of records with any
fixed size is unchanged), and it is idempotent. -/
theorem c7_sort (ms : List StatisticsLine) :
    (sort_stats ms).Perm ms ∧
    (sort_stats ms).Pairwise
      (fun a b => a.total_size_bytes ≤ b.total_size_bytes) ∧
    (∀ n : Nat,
      (sort_stats ms).filter (fun x => decide (x.total_size_bytes = n))
        = ms.filter (fun x => decide (x.total_size_bytes = n))) ∧
    sort_stats (sort_stats ms) = sort_stats ms := by
  refine ⟨List.mergeSort_perm ms _, ?_, ?_, ?_⟩
  · have h := List.sorted_mergeSort sortLe_trans sortLe_total ms
    exact h.imp (fun hab => by simpa using hab)
  · intro n
    set p : StatisticsLine → Bool := fun x => decide (x.total_size_bytes = n) with hp
    have hpw : (ms.filter p).Pairwise
        (fun a b => (decide (a.total_size_bytes ≤ b.total_size_bytes)) = true) := by
      apply List.pairwise_of_forall_mem_list
      intro a ha b hb
      have ha' := (List.mem_filter.mp ha).2
      have hb' := (List.mem_filter.mp hb).2
      rw [hp] at ha' hb'
      simp only [decide_eq_true_iff] at ha' hb' ⊢
      omega
    have hsub : List.Sublist (ms.filter p) ms := List.filter_sublist ms
    have h1 : List.Sublist (ms.filter p) (sort_stats ms) :=
      List.sublist_mergeSort sortLe_trans sortLe_total hpw hsub
    have h2 : List.Sublist ((ms.filter p).filter p) ((sort_stats ms).filter p) :=
      h1.filter p
    have h3 : (ms.filter p).filter p = ms.filter p := by
      rw [List.filter_filter]
      apply List.filter_congr
      intro x _
      simp
    rw [h3] at h2
    have hperm : List.Perm ((sort_stats ms).filter p) (ms.filter p) :=
      (List.mergeSort_perm ms _).filter p
    exact (h2.eq_of_length (hperm.length_eq.symm)).symm
  · unfold sort_stats
    exact List.mergeSort_of_sorted (List.sorted_mergeSort sortLe_trans sortLe_total ms)

theorem filterLoop_eq_filter : ∀ l : List String,
    filterLabelsLoop l = l.filter (fun x => !boringLabel x) := by
  intro l
  induction l with
  | nil => rfl
  | cons x xs ih =>
    rw [List.filter_cons]
    unfold filterLabelsLoop
    by_cases h1 : x = "Inbox" ∨ x = "Important" ∨ x = "Opened"
    · have hb : boringLabel x = true := by
        unfold boringLabel
        rcases h1 with h | h | h <;> subst h <;> simp
      rw [if_pos h1, hb]
      simpa using ih
    · rw [if_neg h1]
      push_neg at h1
      obtain ⟨e1, e2, e3⟩ := h1
      by_cases h2 : List.isPrefixOf ("Category ".toList) x.data = true
      · have hb : boringLabel x = true := by
          unfold boringLabel
          rw [h2]
          simp
        rw [if_pos h2, hb]
        simpa using ih
      · rw [Bool.not_eq_true] at h2
        have hb : boringLabel x = false := by
          unfold boringLabel
          rw [h2]
          simp [e1, e2, e3]
        rw [if_neg (by rw [h2]; simp), hb]
        simp [ih]
theorem strLe_trans : ∀ a b c : String, (decide (a ≤ b)) = true →
    (decide (b ≤ c)) = true → (decide (a ≤ c)) = true := by
  intro a b c hab hbc
  simp only [decide_eq_true_iff] at *
  exact le_trans hab hbc

theorem strLe_total : ∀ a b : String,
    ((decide (a ≤ b)) || (decide (b ≤ a))) = true := by
  intro a b
  simp only [Bool.or_eq_true, decide_eq_true_iff]
  exact le_total a b

/-- C5: the normalized label string is obtained by splitting the input on
commas, dropping every token that is exactly `Inbox`, `Important` or
`Opened` or starts with `Category `, sorting the remaining tokens in
lexicographic order, and joining them with commas; duplicates survive, as
the two concrete examples show. -/
theorem c5_label_normalization :
    (∀ s : String, ∃ L : List String,
      List.Perm L (((splitOnChar ',' s.data).map String.mk).filter
          (fun x => !boringLabel x)) ∧
      L.Pairwise (fun a b : String => a ≤ b) ∧
      label_string s = String.intercalate "," L) ∧
    label_string "Work,Work" = "Work,Work" ∧
    label_string "Inbox,Important,Category Personal,Work" = "Work" := by
  refine ⟨?_, ?_, ?_⟩
  · intro s
    refine ⟨(filter_gmail_labels s).mergeSort (fun a b => decide (a ≤ b)),
      ?_, ?_, rfl⟩
    · have h := List.mergeSort_perm (filter_gmail_labels s)
        (fun a b => decide (a ≤ b))
      simpa only [filter_gmail_labels, filterLoop_eq_filter] using h
    · have h := List.sorted_mergeSort strLe_trans strLe_total
        (filter_gmail_labels s)
      exact h.imp (fun hab => by simpa using hab)
  · unfold label_string
    rw [show filter_gmail_labels "Work,Work" = ["Work", "Work"] from by decide]
    rw [List.mergeSort_of_sorted (List.pairwise_of_forall_mem_list (by
      intro a ha b hb
      simp only [List.mem_cons, List.not_mem_nil, or_false, or_self] at ha hb
      subst ha; subst hb
      simp))]
    decide
  · unfold label_string
    rw [show filter_gmail_labels "Inbox,Important,Category Personal,Work"
        = ["Work"] from by decide]
    rw [List.mergeSort_singleton]
    decide

/-- C8: a message with an absent `From` header or absent `X-Gmail-Labels`
header is not fatal: the absent value becomes the literal string `"None"`
(the extracted sender is `"None"` and the normalized label string is
`"None"`), and one output record is still produced for every input record,
so the pipeline continues. -/
theorem c8_missing_headers (sz : Nat)
    (hFrom hLabels : List Char → Option String) (recs : List (List Char)) :
    processMsg sz none none
      = { count := 1, total_size_bytes := sz, from_addr := "None",
          labels := "None" } ∧
    (read_messages hFrom hLabels recs).length = recs.length := by
  constructor
  · show StatisticsLine.mk 1 sz (extract_address "None") (label_string "None") = _
    have h1 : extract_address "None" = "None" := by decide
    have h2 : label_string "None" = "None" := by
      unfold label_string
      rw [show filter_gmail_labels "None" = ["None"] from by decide]
      rw [List.mergeSort_singleton]
      decide
    rw [h1, h2]
  · unfold read_messages
    rw [List.length_map]

theorem tryMatch_sound : ∀ (cs r : List Char), tryMatch cs = some r →
    ∃ loc dom suf, cs = loc ++ '@' :: (dom ++ '>' :: suf) ∧
      ValidLoc loc ∧ ValidDom dom ∧ r = loc ++ '@' :: dom := by
  intro cs r h
  unfold tryMatch at h
  dsimp only at h
  split at h
  rotate_left
  · exact absurd h (by simp)
  · split at h
    · exact absurd h (by simp)
    · split at h
      rotate_left
      · exact absurd h (by simp)
      · split at h
        · exact absurd h (by simp)
        · rename_i x1 rest heq1 hloc x2 tail heq2 hdom
          refine ⟨cs.takeWhile (fun c => !(c == '@' || c == '>')),
            rest.takeWhile (fun c => !(c == '>')), tail, ?_, ?_, ?_, ?_⟩
          · have hrest : rest
                = rest.takeWhile (fun c => !(c == '>')) ++ '>' :: tail := by
              conv_lhs => rw [← List.takeWhile_append_dropWhile
                (fun c => !(c == '>')) rest]
              rw [heq2]
            conv_lhs => rw [← List.takeWhile_append_dropWhile
              (fun c => !(c == '@' || c == '>')) cs]
            rw [heq1, ← hrest]
          · refine ⟨hloc, ?_⟩
            intro c hc
            have hmem := List.mem_takeWhile_imp hc
            simp only [Bool.not_eq_true', Bool.or_eq_false_iff,
              beq_eq_false_iff_ne] at hmem
            exact hmem
          · refine ⟨hdom, ?_⟩
            intro c hc
            have hmem := List.mem_takeWhile_imp hc
            simp only [Bool.not_eq_true', beq_eq_false_iff_ne] at hmem
            exact hmem
          · injection h with h
            exact h.symm

theorem tryMatch_complete : ∀ (loc dom suf : List Char),
    ValidLoc loc → ValidDom dom →
    tryMatch (loc ++ '@' :: (dom ++ '>' :: suf)) = some (loc ++ '@' :: dom) := by
  intro loc dom suf hl hd
  have hlp : ∀ c ∈ loc, ((fun c => !(c == '@' || c == '>')) c) = true := by
    intro c hc
    have := hl.2 c hc
    simp [this.1, this.2]
  have hdp : ∀ c ∈ dom, ((fun c => !(c == '>')) c) = true := by
    intro c hc
    have := hd.2 c hc
    simp [this]
  unfold tryMatch
  rw [List.takeWhile_append_of_pos hlp, List.dropWhile_append_of_pos hlp]
  rw [List.takeWhile_cons_of_neg (by simp), List.dropWhile_cons_of_neg (by simp)]
  dsimp only
  rw [List.append_nil]
  split
  rotate_left
  · rename_i hne
    exact absurd rfl (hne (dom ++ '>' :: suf))
  · rename_i rest heq
    injection heq with _ heq
    subst heq
    rw [if_neg hl.1]
    rw [List.takeWhile_append_of_pos hdp, List.dropWhile_append_of_pos hdp]
    rw [List.takeWhile_cons_of_neg (by simp), List.dropWhile_cons_of_neg (by simp)]
    rw [List.append_nil]
    split
    rotate_left
    · rename_i hne
      exact absurd rfl (hne suf)
    · rename_i tail heq2
      injection heq2 with _ heq2
      subst heq2
      rw [if_neg hd.1]

theorem bracketAt_shift {c : Char} {cs : List Char} {i : Nat} :
    BracketAt (c :: cs) (i + 1) ↔ BracketAt cs i := by
  unfold BracketAt AddrStringAt
  simp only [List.drop_succ_cons]

theorem findAddr_none : ∀ x : List Char,
    (∀ i, ¬ BracketAt x i) → findAddr x = none
  | [], _ => rfl
  | c :: cs, h => by
    have htl : ∀ i, ¬ BracketAt cs i := fun i hi =>
      h (i + 1) (bracketAt_shift.mpr hi)
    unfold findAddr
    by_cases hc : c = '<'
    · rw [if_pos hc]
      cases htm : tryMatch cs with
      | none => exact findAddr_none cs htl
      | some r =>
        exfalso
        obtain ⟨loc, dom, suf, hcs, hl, hd, _⟩ := tryMatch_sound cs r htm
        exact h 0 ⟨loc, dom, ⟨suf, by simp [hc, hcs]⟩, hl, hd⟩
    · rw [if_neg hc]
      exact findAddr_none cs htl

theorem findAddr_first : ∀ (x : List Char) (i : Nat) (loc dom : List Char),
    AddrStringAt x i loc dom → (∀ j, j < i → ¬ BracketAt x j) →
    findAddr x = some (loc ++ '@' :: dom)
  | [], i, loc, dom, h, _ => by
    exfalso
    obtain ⟨⟨suf, hdrop⟩, _, _⟩ := h
    rw [List.drop_nil] at hdrop
    exact absurd hdrop (by simp)
  | c :: cs, 0, loc, dom, h, _ => by
    obtain ⟨⟨suf, hdrop⟩, hl, hd⟩ := h
    rw [List.drop_zero] at hdrop
    injection hdrop with hc hcs
    unfold findAddr
    rw [if_pos hc, hcs, tryMatch_complete loc dom suf hl hd]
  | c :: cs, i + 1, loc, dom, h, hmin => by
    have h' : AddrStringAt cs i loc dom := by
      obtain ⟨⟨suf, hdrop⟩, hl, hd⟩ := h
      rw [List.drop_succ_cons] at hdrop
      exact ⟨⟨suf, hdrop⟩, hl, hd⟩
    have hmin' : ∀ j, j < i → ¬ BracketAt cs j := fun j hj hb =>
      hmin (j + 1) (by omega) (bracketAt_shift.mpr hb)
    unfold findAddr
    by_cases hc : c = '<'
    · rw [if_pos hc]
      cases htm : tryMatch cs with
      | none => exact findAddr_first cs i loc dom h' hmin'
      | some r =>
        exfalso
        obtain ⟨loc', dom', suf', hcs, hl', hd', _⟩ := tryMatch_sound cs r htm
        exact hmin 0 (by omega) ⟨loc', dom', ⟨suf', by simp [hc, hcs]⟩, hl', hd'⟩
    · rw [if_neg hc]
      exact findAddr_first cs i loc dom h' hmin'

/-- C6: `extract_address` returns the inner text of the first (leftmost)
substring of the form `<local@domain>` — `local` nonempty with no `>` or
`@`, `domain` nonempty with no `>` — and returns the input unchanged when
no such bracketed address occurs, as in the two concrete examples. -/
theorem c6_extract_address :
    (∀ x : String, (∀ i, ¬ BracketAt x.data i) → extract_address x = x) ∧
    (∀ (x : String) (i : Nat) (loc dom : List Char),
      AddrStringAt x.data i loc dom → (∀ j, j < i → ¬ BracketAt x.data j) →
      extract_address x = String.mk (loc ++ '@' :: dom)) ∧
    extract_address "Jane Doe <jane@example.com>" = "jane@example.com" ∧
    extract_address "noreply" = "noreply" := by
  refine ⟨?_, ?_, by decide, by decide⟩
  · intro x h
    unfold extract_address
    rw [findAddr_none x.data h]
  · intro x i loc dom h hmin
    unfold extract_address
    rw [findAddr_first x.data i loc dom h hmin]

theorem c6_extract_address_witness :
    extract_address "<a@b>" = String.mk (['a'] ++ '@' :: ['b']) :=
  c6_extract_address.2.1 "<a@b>" 0 ['a'] ['b']
    ⟨⟨[], by decide⟩, ⟨by decide, by decide⟩, ⟨by decide, by decide⟩⟩
    (fun j hj => absurd hj (by omega))
